import Mathlib

/-!
Verification development for the `controlled-async-stream.iterator`
repository: a shallow embedding, in Lean 4, of the repository's lazy
sequence combinators (`SyncSequence`, `AsyncSequence`, `LazyStream`,
`AsyncLazyStream`), its conversion bridge (`toSync` / `toAsync`) and its
cadence-control policies (the PID rate adjusters), together with theorems
settling the specification's claims about them.

Modelling conventions, used throughout:

* A JavaScript iterable that has been fully drained is modelled by the
  list of elements it produces, in order.  Generator *objects* are
  single-use in JavaScript (once the `for..of` loop completes, any further
  iteration yields nothing); where a claim depends on this, the iterable
  state is carried explicitly (`SrcIt`, `SeqNode` below).
* JavaScript numbers are modelled as rationals (`ℚ`) for the cadence
  policies and as integers for sequence elements; the properties at stake
  (clamping bounds, order, monotone decrease, exact steady state at error
  zero) are arithmetic-identity facts that do not hinge on rounding.
* Heterogeneous element values (numbers nested in arrays, as produced and
  consumed by `flatten`) are modelled by the inductive `JSVal`.
* A stage function that can throw is modelled as a function into
  `Except ε _`; the generator helpers in the source contain no
  `try`/`catch`, so a thrown error aborts the pull and surfaces to the
  terminal caller, which the `Except` interpreters mirror.
-/

namespace CAS

/-- A dynamic JavaScript value as `flatten` sees it: either a plain
number or an array of values.  (`zip` pairs are two-element arrays in the
source: `yield [a.value, b.value]`.) -/
inductive JSVal where
  | num : Int → JSVal
  | arr : List JSVal → JSVal

/-- The runtime test `item && typeof item[Symbol.iterator] === 'function'`
used by `flatten` in `lazy-stream.ts`: arrays are (truthy and) iterable,
numbers are not. -/
def JSVal.isIterable : JSVal → Bool
  | .num _ => false
  | .arr _ => true

/-- The elements an iterable `JSVal` yields (`for (const x of item)`). -/
def JSVal.children : JSVal → List JSVal
  | .num _ => []
  | .arr l => l

/-- A `depth` argument to `flatten`: either the default `Infinity` or a
finite number. -/
inductive Depth where
  | inf : Depth
  | fin : Nat → Depth
deriving Repr, DecidableEq

/-- The test `depth > 0` (`Infinity > 0` is true in JavaScript). -/
def Depth.pos : Depth → Bool
  | .inf => true
  | .fin n => decide (0 < n)

/-- The recursive argument `depth - 1` (`Infinity - 1 === Infinity`). -/
def Depth.dec : Depth → Depth
  | .inf => .inf
  | .fin n => .fin (n - 1)

/-- `flatten(iter, depth)` from `lazy-stream.ts` (the same shape as
`asyncFlatten` in `async-lazy-stream.ts` / `async-sequence.ts`): for each
item, if `depth > 0` and the item is iterable, recurse into it at
`depth - 1`; otherwise yield the item itself. -/
def flattenLS (d : Depth) : List JSVal → List JSVal
  | [] => []
  | x :: xs =>
    (if d.pos && x.isIterable then flattenLS d.dec x.children else [x])
      ++ flattenLS d xs
termination_by l => (sizeOf l, 0)
decreasing_by
  · cases x with
    | num n => simp [JSVal.isIterable] at *
    | arr l => simp [JSVal.children]; omega
  · simp; omega

/-- `flatten(iter)` from `sync-sequence.ts`: `for (const sub of iter)
yield* sub` — no depth parameter, exactly one level of unwrapping, and
`yield*` on a non-iterable element throws a `TypeError` (modelled as
`none`). -/
def flattenSS : List JSVal → Option (List JSVal)
  | [] => some []
  | .num _ :: _ => none
  | .arr l :: xs => (flattenSS xs).map (l ++ ·)

/-- The nested example from the specification:
`[[1,2],[3,[4,5]],6]`. -/
def nestedExample : List JSVal :=
  [.arr [.num 1, .num 2], .arr [.num 3, .arr [.num 4, .num 5]], .num 6]

/-! ### `take` with an upstream pull counter

`take` in `sync-sequence.ts` / `lazy-stream.ts`:

```
let count = 0;
for (const item of iter) {
  if (count++ < n) yield item;
  else break;
}
```

`asyncTake` in `async-lazy-stream.ts`:

```
let count = 0;
for await (const item of iter) {
  if (count++ >= n) { break; }
  yield item;
}
```

Each `for..of` iteration that receives an element is one upstream pull,
which is what the specification's instrumented pull counter counts.  The
loop body decides *after* the pull whether to yield or break.  Both
functions are embedded as a function from (remaining upstream elements,
running count, `n`) to (yielded elements, number of elements pulled). -/

/-- The sync `take` loop (`sync-sequence.ts` and `lazy-stream.ts`),
instrumented: returns the yielded elements together with the number of
elements pulled from upstream. -/
def takeLoopSync : List α → Nat → Nat → List α × Nat
  | [], _, _ => ([], 0)
  | x :: xs, count, n =>
    if count < n then
      let r := takeLoopSync xs (count + 1) n
      (x :: r.1, r.2 + 1)
    else
      ([], 1)

/-- The `asyncTake` loop of `async-lazy-stream.ts`, instrumented the same
way (the element is pulled, then `count++ >= n` is tested before any
yield). -/
def takeLoopAsync : List α → Nat → Nat → List α × Nat
  | [], _, _ => ([], 0)
  | x :: xs, count, n =>
    if count ≥ n then
      ([], 1)
    else
      let r := takeLoopAsync xs (count + 1) n
      (x :: r.1, r.2 + 1)

/-- Elements emitted by the sync `take` helper. -/
def takeSyncOut (l : List α) (n : Nat) : List α := (takeLoopSync l 0 n).1

/-- Upstream elements pulled by the sync `take` helper when consumed to
exhaustion. -/
def takeSyncPulls (l : List α) (n : Nat) : Nat := (takeLoopSync l 0 n).2

/-- Elements emitted by `asyncTake`. -/
def takeAsyncOut (l : List α) (n : Nat) : List α := (takeLoopAsync l 0 n).1

/-- Upstream elements pulled by `asyncTake` when consumed to
exhaustion. -/
def takeAsyncPulls (l : List α) (n : Nat) : Nat := (takeLoopAsync l 0 n).2

/-! ### Staged pipelines: `LazyStream` and `AsyncLazyStream`

A `LazyStream` holds a `source` iterable and a `pipeline` array of stage
functions.  `addOperation` does `this.pipeline.push(operation); return
this;` — it appends to the receiver's own array in place and returns the
same object (cast to the new element type).  In the embedding a method
call returns the post-call state of that one shared object: the receiver
and the returned handle are the same JavaScript reference, so both are
represented by the returned record.

The stage closures are pure data until `stream()` runs them, so the
pipeline is embedded as a list of `Op` descriptors and `stream()` as the
fold that `pipeline.reduce` performs. -/

/-- A source iterable.  A plain array yields its elements afresh on every
`for..of`; a generator object is single-use — after one complete
iteration, further iteration yields nothing. -/
inductive SrcIt (α : Type) where
  | arr : List α → SrcIt α
  | gen : List α → SrcIt α

/-- Fully consuming a source: the elements it yields this time, and its
state afterwards. -/
def SrcIt.drain : SrcIt α → List α × SrcIt α
  | .arr l => (l, .arr l)
  | .gen rem => (rem, .gen [])

/-- One stage of a `LazyStream` pipeline, one constructor per chaining
method of `lazy-stream.ts`.  `tap`'s observer is a side effect with no
influence on the elements, so the stage is kept payload-free.

Modelling boundary for `concat`/`zip`: in the source the operation
closure captures the other `LazyStream` objects and re-invokes
`other.stream()` at each materialization, so consuming the result also
advances the other streams' (possibly single-use) sources.  Here the
payload records only the elements those `stream()` calls yield at the
materialization under study; the advance of the other stream objects'
own state is outside this model, and no theorem below relies on it —
in particular the cross-run determinism statement for `LazyStream`
(claim C6) is confined to `map`/`filter` pipelines, which capture no
other stream. -/
inductive Op where
  | map : (JSVal → JSVal) → Op
  | filter : (JSVal → Bool) → Op
  | flatMap : (JSVal → List JSVal) → Op
  | take : Nat → Op
  | skip : Nat → Op
  | concat : List (List JSVal) → Op
  | zip : List JSVal → Op
  | tap : Op
  | flatten : Depth → Op

/-- The generator helper each stage closure calls, as a function on the
list of elements the input iterable yields (`zip` emits two-element
arrays, as in the source). -/
def applyOp (op : Op) (l : List JSVal) : List JSVal :=
  match op with
  | .map f => l.map f
  | .filter p => l.filter p
  | .flatMap f => l.flatMap f
  | .take n => takeSyncOut l n
  | .skip n => l.drop n
  | .concat others => l ++ others.flatten
  | .zip other => (l.zip other).map fun ab => .arr [ab.1, ab.2]
  | .tap => l
  | .flatten d => flattenLS d l

/-- The `LazyStream` object state: its source iterable and its pipeline
array. -/
structure LazyStream where
  source : SrcIt JSVal
  pipeline : List Op

/-- `addOperation`: pushes the stage onto the receiver's pipeline array
and returns the same object.  The result is the state of the receiver
after the call (receiver and return value alias). -/
def LazyStream.addOperation (s : LazyStream) (op : Op) : LazyStream :=
  { s with pipeline := s.pipeline ++ [op] }

def LazyStream.mapS (s : LazyStream) (f : JSVal → JSVal) : LazyStream :=
  s.addOperation (.map f)

def LazyStream.filterS (s : LazyStream) (p : JSVal → Bool) : LazyStream :=
  s.addOperation (.filter p)

def LazyStream.flatMapS (s : LazyStream) (f : JSVal → List JSVal) : LazyStream :=
  s.addOperation (.flatMap f)

def LazyStream.takeS (s : LazyStream) (n : Nat) : LazyStream :=
  s.addOperation (.take n)

def LazyStream.skipS (s : LazyStream) (n : Nat) : LazyStream :=
  s.addOperation (.skip n)

def LazyStream.concatS (s : LazyStream) (others : List (List JSVal)) : LazyStream :=
  s.addOperation (.concat others)

def LazyStream.zipS (s : LazyStream) (other : List JSVal) : LazyStream :=
  s.addOperation (.zip other)

def LazyStream.tapS (s : LazyStream) : LazyStream :=
  s.addOperation .tap

def LazyStream.flattenS (s : LazyStream) (d : Depth) : LazyStream :=
  s.addOperation (.flatten d)

/-- `stream()` composes the pipeline (`pipeline.reduce`) over the source;
a terminal operation then consumes it fully.  `materialize` is that
composition plus full consumption: the elements the terminal operation
sees, and the object state afterwards (the source may have been a
single-use generator). -/
def LazyStream.materialize (s : LazyStream) : List JSVal × LazyStream :=
  let d := s.source.drain
  (s.pipeline.foldl (fun acc op => applyOp op acc) d.1, { s with source := d.2 })

/-- `reduce(reducer, initialValue)`: folds the reducer over the
materialized stream. -/
def LazyStream.reduceS (s : LazyStream) (g : β → JSVal → β) (init : β) : β × LazyStream :=
  let m := s.materialize
  (m.1.foldl g init, m.2)

/-- `toPromise()`: runs `this.take(1).stream()` and returns the first
element, or `undefined` (`none`) when empty.  `this.take(1)` goes through
`addOperation`, so the `take 1` stage lands on the receiver's own
pipeline array; the returned state reflects that. -/
def LazyStream.toPromiseEffect (s : LazyStream) : Option JSVal × LazyStream :=
  let m := (s.takeS 1).materialize
  (m.1.head?, m.2)

/-- One stage of an `AsyncLazyStream` pipeline (`async-lazy-stream.ts`),
with the same `concat`/`zip` modelling boundary as `Op`: the payload
records the elements the captured streams yield at the materialization
under study, and no theorem relies on the captured streams' own state
advance. -/
inductive AOp where
  | map : (JSVal → JSVal) → AOp
  | filter : (JSVal → Bool) → AOp
  | flatMap : (JSVal → List JSVal) → AOp
  | take : Nat → AOp
  | skip : Nat → AOp
  | concat : List (List JSVal) → AOp
  | zip : List JSVal → AOp
  | tap : AOp
  | flatten : Depth → AOp

/-- The async generator helpers of `async-lazy-stream.ts`, as functions
on the list of elements the input yields.  `asyncTake` is the variant
that tests `count++ >= n` before yielding. -/
def applyAOp (op : AOp) (l : List JSVal) : List JSVal :=
  match op with
  | .map f => l.map f
  | .filter p => l.filter p
  | .flatMap f => l.flatMap f
  | .take n => takeAsyncOut l n
  | .skip n => l.drop n
  | .concat others => l ++ others.flatten
  | .zip other => (l.zip other).map fun ab => .arr [ab.1, ab.2]
  | .tap => l
  | .flatten d => flattenLS d l

/-- The `AsyncLazyStream` object state. -/
structure AsyncLazyStream where
  source : SrcIt JSVal
  pipeline : List AOp

/-- `addOperation` of `async-lazy-stream.ts`: same push-and-return-this
shape as the sync variant. -/
def AsyncLazyStream.addOperation (s : AsyncLazyStream) (op : AOp) : AsyncLazyStream :=
  { s with pipeline := s.pipeline ++ [op] }

def AsyncLazyStream.takeS (s : AsyncLazyStream) (n : Nat) : AsyncLazyStream :=
  s.addOperation (.take n)

/-- `stream()` plus full consumption for `AsyncLazyStream`. -/
def AsyncLazyStream.materialize (s : AsyncLazyStream) : List JSVal × AsyncLazyStream :=
  let d := s.source.drain
  (s.pipeline.foldl (fun acc op => applyAOp op acc) d.1, { s with source := d.2 })

/-- `toPromise()` of `async-lazy-stream.ts`: `this.take(1).stream()`,
first element or `undefined`. -/
def AsyncLazyStream.toPromiseEffect (s : AsyncLazyStream) : Option JSVal × AsyncLazyStream :=
  let m := (s.takeS 1).materialize
  (m.1.head?, m.2)

/-! ### `SyncSequence` chains as stateful iterables

`SyncSequence.map`/`filter` call the generator helper *at chain time*:
`new SyncSequence(map(this.iterable, fn))` creates a generator object
right away (its body runs lazily, but the object itself is single-use).
`[Symbol.iterator]()` returns `this.iterable[Symbol.iterator]()`, and a
generator object's `Symbol.iterator` returns itself — so a second
`for..of` over the same chain resumes the already-completed generator and
yields nothing.  The chain is therefore embedded as a tree of iterable
nodes, each generator node carrying whether it has already been run. -/

inductive SeqNode (α : Type) where
  | arrSrc : List α → SeqNode α
  | genSrc : List α → SeqNode α
  | mapN : (α → α) → SeqNode α → Bool → SeqNode α
  | filterN : (α → Bool) → SeqNode α → Bool → SeqNode α

/-- One full `for..of` over a chain node: the elements it yields this
time, and the node's state afterwards.  An already-used generator node
yields nothing; a fresh one runs its body, consuming (and marking) its
upstream. -/
def SeqNode.drain : SeqNode α → List α × SeqNode α
  | .arrSrc l => (l, .arrSrc l)
  | .genSrc rem => (rem, .genSrc [])
  | .mapN f sub used =>
    if used then ([], .mapN f sub used)
    else
      let d := sub.drain
      (d.1.map f, .mapN f d.2 true)
  | .filterN p sub used =>
    if used then ([], .filterN p sub used)
    else
      let d := sub.drain
      (d.1.filter p, .filterN p d.2 true)

/-- `SyncSequence.map`: wraps the receiver's iterable in a fresh `map`
generator object. -/
def SeqNode.mapSeq (s : SeqNode α) (f : α → α) : SeqNode α := .mapN f s false

/-- `SyncSequence.filter`: wraps the receiver's iterable in a fresh
`filter` generator object. -/
def SeqNode.filterSeq (s : SeqNode α) (p : α → Bool) : SeqNode α := .filterN p s false

/-- The `range(1, 10)` generator of the `sync-sequence.ts` example. -/
def rangeList (a b : Int) : List Int := (List.range (b - a + 1).toNat).map (a + ·)

/-! ### Conversion bridge -/

/-- `AsyncSequence.toSync()`: `const results = []; for await (const item
of this) { results.push(item); } return new SyncSequence(results)` — the
buffering loop, as the fold it performs on the drained elements. -/
def asyncToSyncDrain (l : List α) : List α :=
  l.foldl (fun results item => results ++ [item]) []

/-- Modelled from the spec: `SyncSequence.toAsync()` is called by the
repository's tests (`test/src/async-sync-async.ts`) but its definition is
not among the sources.  Per the spec it "wraps the (already-available)
elements in an async-producing adapter that yields them in the same order
without introducing artificial suspension", so on a finite sequence it
yields exactly the receiver's elements in order. -/
def syncToAsync (l : List α) : List α := l

/-! ### Cadence policies (PID rate adjusters)

Two PID adjusters exist in the sources: `createRateAdjuster` (the
anti-windup variant, with `errorSum` clamped to `[-maxErrorSum,
maxErrorSum]`) and the `rateAdjuster` closure in `pid-control.ts` (which
accumulates `errorSum += error` with no clamp).  Both keep `delay`,
`errorSum` and `lastError` as closure state, start at `delay = 1000`, and
return `delay = Math.max(100, delay + adjustment)`.  Numbers are
modelled as rationals. -/

structure PIDState where
  errorSum : ℚ
  lastError : ℚ
  delay : ℚ

def targetLatency : ℚ := 1000

def kP : ℚ := 1 / 10

def kI : ℚ := 1 / 100

def kD : ℚ := 1 / 100

def maxErrorSum : ℚ := 5000

def minDelay : ℚ := 100

/-- Closure state at creation time: `delay = 1000`, `errorSum = 0`,
`lastError = 0`. -/
def pidInit : PIDState := ⟨0, 0, 1000⟩

/-- One call of the adjuster returned by `createRateAdjuster` (the
anti-windup variant): clamps the updated `errorSum` before use. -/
def adjustAW (st : PIDState) (latency : ℚ) : PIDState × ℚ :=
  let error := targetLatency - latency
  let derivative := error - st.lastError
  let errorSum := max (-maxErrorSum) (min maxErrorSum (st.errorSum + error))
  let adjustment := kP * error + kI * errorSum + kD * derivative
  let delay := max minDelay (st.delay + adjustment)
  (⟨errorSum, error, delay⟩, delay)

/-- One call of the `rateAdjuster` closure in `pid-control.ts`:
`errorSum += error` with no clamping. -/
def adjustNC (st : PIDState) (latency : ℚ) : PIDState × ℚ :=
  let error := targetLatency - latency
  let derivative := error - st.lastError
  let errorSum := st.errorSum + error
  let adjustment := kP * error + kI * errorSum + kD * derivative
  let delay := max minDelay (st.delay + adjustment)
  (⟨errorSum, error, delay⟩, delay)

/-- State after `n` calls of the anti-windup adjuster with a constant
observed latency. -/
def trajAW (latency : ℚ) : Nat → PIDState
  | 0 => pidInit
  | n + 1 => (adjustAW (trajAW latency n) latency).1

/-- State after `n` calls of the unclamped `pid-control.ts` adjuster with
a constant observed latency. -/
def trajNC (latency : ℚ) : Nat → PIDState
  | 0 => pidInit
  | n + 1 => (adjustNC (trajNC latency n) latency).1

/-! ### Fallible stage functions

None of the generator helpers contains a `try`/`catch`: an exception
thrown by a user-supplied transform, predicate or observer aborts the
pull and propagates out of the terminal operation.  Stages with fallible
payloads are embedded over `Except`. -/

/-- A stage whose user-supplied function may throw. -/
inductive EStage (ε α : Type) where
  | emap : (α → Except ε α) → EStage ε α
  | efilter : (α → Except ε Bool) → EStage ε α
  | etap : (α → Except ε Unit) → EStage ε α

/-- The `map` generator over a throwing transform: elements are
transformed in order until the first throw, which aborts the whole
pull chain. -/
def runMapE (f : α → Except ε β) : List α → Except ε (List β)
  | [] => .ok []
  | x :: xs => do
    let y ← f x
    let ys ← runMapE f xs
    pure (y :: ys)

/-- The `filter` generator over a throwing predicate. -/
def runFilterE (p : α → Except ε Bool) : List α → Except ε (List α)
  | [] => .ok []
  | x :: xs => do
    let b ← p x
    let ys ← runFilterE p xs
    pure (if b then x :: ys else ys)

/-- The `tap` generator over a throwing observer: the observer runs on
each element before it is passed through. -/
def runTapE (f : α → Except ε Unit) : List α → Except ε (List α)
  | [] => .ok []
  | x :: xs => do
    let _ ← f x
    let ys ← runTapE f xs
    pure (x :: ys)

/-- Running one fallible stage over the elements its input yields. -/
def applyEStage : EStage ε α → List α → Except ε (List α)
  | .emap f, l => runMapE f l
  | .efilter p, l => runFilterE p l
  | .etap f, l => runTapE f l

/-- Composing a pipeline of fallible stages left-to-right, as
`stream()` does. -/
def streamE : List (EStage ε α) → List α → Except ε (List α)
  | [], l => .ok l
  | s :: ss, l => do streamE ss (← applyEStage s l)

/-- A terminal `reduce` over a pipeline of fallible stages: the error of
the first throwing stage function surfaces to the caller of `reduce`. -/
def reduceE (stages : List (EStage ε α)) (g : β → α → β) (init : β)
    (src : List α) : Except ε β :=
  (streamE stages src).map fun l => l.foldl g init

/-- The stage's user-supplied function succeeds on `y`. -/
def EStage.okOn : EStage ε α → α → Prop
  | .emap f, y => ∃ z, f y = .ok z
  | .efilter p, y => ∃ b, p y = .ok b
  | .etap f, y => f y = .ok ()

/-- The stage's user-supplied function throws `e` on `x`. -/
def EStage.failsAt : EStage ε α → α → ε → Prop
  | .emap f, x, e => f x = .error e
  | .efilter p, x, e => p x = .error e
  | .etap f, x, e => f x = .error e

/-! ### Concrete instances used by counterexamples and witnesses -/

/-- The doubling transform `x => x * 2` on dynamic values. -/
def dblVal : JSVal → JSVal
  | .num n => .num (2 * n)
  | .arr l => .arr l

/-- The predicate `x => x > 10` on dynamic values. -/
def gt10Val : JSVal → Bool
  | .num n => decide (10 < n)
  | .arr _ => false

/-- A fresh `LazyStream` over the array `[1, 2, 3]` with an empty
pipeline. -/
def lsEx : LazyStream := ⟨.arr [.num 1, .num 2, .num 3], []⟩

/-- `rangeList a b` as dynamic values. -/
def rangeVals (a b : Int) : List JSVal := (rangeList a b).map JSVal.num

/-- The chain `SyncSequence.from(() => range(1, 10)).map(x => x * 2)
.filter(x => x > 10)` of the `sync-sequence.ts` example: the generator
function is invoked once at construction, and each chained call wraps the
previous iterable in a fresh (single-use) generator object. -/
def syncChainEx : SeqNode Int :=
  ((SeqNode.genSrc (rangeList 1 10)).mapSeq (fun x => 2 * x)).filterSeq
    (fun x => decide (10 < x))

/-- The same chain staged on a `LazyStream` whose retained source is the
(re-iterable) array `[1, ..., 10]`. -/
def lazyRangeEx : LazyStream :=
  ⟨.arr (rangeVals 1 10), [.map dblVal, .filter gt10Val]⟩

/-- A transform that throws on the element `2`. -/
def failP : Int → Except String Int :=
  fun n => if n = 2 then .error "boom" else .ok n

/-- A transform that always succeeds, adding one (an upstream stage for
the error-propagation witness). -/
def incOk : Int → Except String Int := fun n => .ok (n + 1)

/-- A predicate that always succeeds (a downstream stage for the
error-propagation witness). -/
def posOk : Int → Except String Bool := fun n => .ok (decide (0 < n))

/-! ### Mixed sync/async nesting for the depth-taking `flatten`

`asyncFlatten` and `syncFlatten` (`async-lazy-stream.ts` and
`async-sequence.ts`) are mutually recursive generators with identical
bodies: per element, first test `typeof item[Symbol.asyncIterator] ===
'function'` and recurse via `asyncFlatten(item, depth - 1)`, else test
`typeof item[Symbol.iterator] === 'function'` and recurse via
`syncFlatten(item, depth - 1)`, else yield the item.  The two differ
only in how they iterate their own input (`for await` versus `for`), so
over the drained element list both are the one dispatch function
`flattenMixed` below, acting on values that may nest sync iterables and
async iterables in any mixture. -/

/-- A dynamic value as the async `flatten` pair sees it: a plain number,
a sync iterable (array) of values, or an async iterable (async sequence)
of values — nesting may mix the two arbitrarily. -/
inductive NVal where
  | num : Int → NVal
  | arr : List NVal → NVal
  | aseq : List NVal → NVal

/-- The test `typeof item[Symbol.asyncIterator] === 'function'`. -/
def NVal.isAsyncIt : NVal → Bool
  | .aseq _ => true
  | _ => false

/-- The test `typeof item[Symbol.iterator] === 'function'` (tried second,
on arrays). -/
def NVal.isSyncIt : NVal → Bool
  | .arr _ => true
  | _ => false

/-- The elements a nested iterable yields. -/
def NVal.children : NVal → List NVal
  | .num _ => []
  | .arr l => l
  | .aseq l => l

/-- The shared per-element dispatch of `asyncFlatten`/`syncFlatten`:
async iterable first, then sync iterable, else a plain value — each
nested branch recursing at `depth - 1`. -/
def flattenMixed (d : Depth) : List NVal → List NVal
  | [] => []
  | x :: xs =>
    (if d.pos && x.isAsyncIt then flattenMixed d.dec x.children
     else if d.pos && x.isSyncIt then flattenMixed d.dec x.children
     else [x])
      ++ flattenMixed d xs
termination_by l => (sizeOf l, 0)
decreasing_by
  · cases x with
    | num n => simp [NVal.isAsyncIt] at *
    | arr l => simp [NVal.isAsyncIt] at *
    | aseq l => simp [NVal.children]; omega
  · cases x with
    | num n => simp [NVal.isSyncIt] at *
    | arr l => simp [NVal.children]; omega
    | aseq l => simp [NVal.children]; omega
  · simp; omega

mutual

/-- The in-order plain leaves of a possibly-nested value: the reference
answer for complete flattening. -/
def NVal.leaves : NVal → List NVal
  | .num n => [.num n]
  | .arr l => leavesOf l
  | .aseq l => leavesOf l

/-- The in-order plain leaves of a list of possibly-nested values. -/
def leavesOf : List NVal → List NVal
  | [] => []
  | x :: xs => x.leaves ++ leavesOf xs

end

mutual

/-- Nesting depth of a value: `0` for a plain value, one more than the
deepest child for an iterable. -/
def NVal.nesting : NVal → Nat
  | .num _ => 0
  | .arr l => nestingOf l + 1
  | .aseq l => nestingOf l + 1

/-- Deepest nesting among a list of values. -/
def nestingOf : List NVal → Nat
  | [] => 0
  | x :: xs => max x.nesting (nestingOf xs)

end

/-- A mixed-nesting input: an async sequence containing a sync array,
and a sync array containing an async sequence, beside a plain value. -/
def mixedExample : List NVal :=
  [.aseq [.num 1, .arr [.num 2, .num 3]],
   .arr [.num 4, .aseq [.num 5]],
   .num 6]

/-- A stage from the `map`/`filter` fragment of the operator set (the
scope of the spec's determinism property). -/
inductive MFOp where
  | map : (JSVal → JSVal) → MFOp
  | filter : (JSVal → Bool) → MFOp

/-- The `LazyStream` stage an `MFOp` denotes. -/
def MFOp.toOp : MFOp → Op
  | .map f => .map f
  | .filter p => .filter p

end CAS

namespace CAS

/-! ## Helper lemmas -/

/-- Characterization of the sync `take` loop: started at `count = c ≤ n`
it emits the next `n - c` elements and pulls `min length (n - c + 1)`
elements. -/
theorem takeLoopSync_eq {α : Type _} (l : List α) : ∀ c n : Nat, c ≤ n →
    takeLoopSync l c n = (l.take (n - c), min l.length (n - c + 1)) := by
  induction l with
  | nil => intro c n _; simp [takeLoopSync]
  | cons x xs ih =>
    intro c n h
    by_cases hc : c < n
    · rw [takeLoopSync, if_pos hc, ih (c + 1) n hc]
      refine Prod.ext ?_ ?_
      · show x :: xs.take (n - (c + 1)) = (x :: xs).take (n - c)
        rw [show n - c = (n - (c + 1)) + 1 by omega, List.take_succ_cons]
      · show min xs.length (n - (c + 1) + 1) + 1 = min (x :: xs).length (n - c + 1)
        simp only [List.length_cons]; omega
    · have : c = n := by omega
      subst this
      rw [takeLoopSync, if_neg hc]
      refine Prod.ext ?_ ?_
      · simp
      · simp only [List.length_cons]; omega

/-- Same characterization for `asyncTake` of `async-lazy-stream.ts`. -/
theorem takeLoopAsync_eq {α : Type _} (l : List α) : ∀ c n : Nat, c ≤ n →
    takeLoopAsync l c n = (l.take (n - c), min l.length (n - c + 1)) := by
  induction l with
  | nil => intro c n _; simp [takeLoopAsync]
  | cons x xs ih =>
    intro c n h
    by_cases hc : c < n
    · rw [takeLoopAsync, if_neg (by omega), ih (c + 1) n hc]
      refine Prod.ext ?_ ?_
      · show x :: xs.take (n - (c + 1)) = (x :: xs).take (n - c)
        rw [show n - c = (n - (c + 1)) + 1 by omega, List.take_succ_cons]
      · show min xs.length (n - (c + 1) + 1) + 1 = min (x :: xs).length (n - c + 1)
        simp only [List.length_cons]; omega
    · have : c = n := by omega
      subst this
      rw [takeLoopAsync, if_pos (le_refl _)]
      refine Prod.ext ?_ ?_
      · simp
      · simp only [List.length_cons]; omega

theorem takeSyncOut_eq_take {α : Type _} (l : List α) (n : Nat) :
    takeSyncOut l n = l.take n := by
  have h := takeLoopSync_eq l 0 n (Nat.zero_le n)
  simp only [Nat.sub_zero] at h
  simp [takeSyncOut, h]

theorem takeAsyncOut_eq_take {α : Type _} (l : List α) (n : Nat) :
    takeAsyncOut l n = l.take n := by
  have h := takeLoopAsync_eq l 0 n (Nat.zero_le n)
  simp only [Nat.sub_zero] at h
  simp [takeAsyncOut, h]

/-- The push-buffering fold of `toSync` appends the drained elements to
the accumulator in order. -/
theorem foldl_push {α : Type _} (l acc : List α) :
    l.foldl (fun r x => r ++ [x]) acc = acc ++ l := by
  induction l generalizing acc with
  | nil => simp
  | cons x xs ih => simp [List.foldl_cons, ih]

/-- Chaining a whole list of stages onto a `LazyStream` is list append on
the pipeline, with the source untouched. -/
theorem buildPipeline_eq (ops : List Op) : ∀ s : LazyStream,
    (ops.foldl LazyStream.addOperation s).source = s.source ∧
    (ops.foldl LazyStream.addOperation s).pipeline = s.pipeline ++ ops := by
  induction ops with
  | nil => intro s; simp
  | cons op rest ih =>
    intro s
    have h := ih (s.addOperation op)
    simpa [LazyStream.addOperation, List.append_assoc] using h

/-- Chaining a list of stages onto an `AsyncLazyStream` is list append on
the pipeline, with the source untouched. -/
theorem buildAPipeline_eq (ops : List AOp) : ∀ t : AsyncLazyStream,
    (ops.foldl AsyncLazyStream.addOperation t).source = t.source ∧
    (ops.foldl AsyncLazyStream.addOperation t).pipeline = t.pipeline ++ ops := by
  induction ops with
  | nil => intro t; simp
  | cons op rest ih =>
    intro t
    have h := ih (t.addOperation op)
    simpa [AsyncLazyStream.addOperation, List.append_assoc] using h

/-- If a stage's user function succeeds on every element of the prefix
and throws `e` on `x`, running the stage over `prefixElems ++ x :: rest`
surfaces `e` (no element of `rest` is consulted). -/
theorem applyEStage_error {ε α : Type _} (st : EStage ε α) (l₁ : List α) (x : α)
    (l₂ : List α) (e : ε) (hok : ∀ y ∈ l₁, st.okOn y) (hx : st.failsAt x e) :
    applyEStage st (l₁ ++ x :: l₂) = .error e := by
  cases st with
  | emap f =>
    simp only [EStage.failsAt] at hx
    induction l₁ with
    | nil => simp [applyEStage, runMapE, hx, Bind.bind, Except.bind]
    | cons y ys ih =>
      obtain ⟨z, hz⟩ := hok y (by simp)
      have := ih (fun w hw => hok w (by simp [hw]))
      simp only [applyEStage] at this
      simp [applyEStage, runMapE, hz, this, Bind.bind, Except.bind]
  | efilter p =>
    simp only [EStage.failsAt] at hx
    induction l₁ with
    | nil => simp [applyEStage, runFilterE, hx, Bind.bind, Except.bind]
    | cons y ys ih =>
      obtain ⟨z, hz⟩ := hok y (by simp)
      have := ih (fun w hw => hok w (by simp [hw]))
      simp only [applyEStage] at this
      simp [applyEStage, runFilterE, hz, this, Bind.bind, Except.bind]
  | etap f =>
    simp only [EStage.failsAt] at hx
    induction l₁ with
    | nil => simp [applyEStage, runTapE, hx, Bind.bind, Except.bind]
    | cons y ys ih =>
      have hz := hok y (by simp)
      simp only [EStage.okOn] at hz
      have := ih (fun w hw => hok w (by simp [hw]))
      simp only [applyEStage] at this
      simp [applyEStage, runTapE, hz, this, Bind.bind, Except.bind]

/-- Unfolding of the anti-windup adjuster's new delay. -/
theorem adjustAW_delay_eq (st : PIDState) (L : ℚ) :
    ((adjustAW st L).1).delay = max minDelay (st.delay +
      (kP * (targetLatency - L) +
        kI * max (-maxErrorSum) (min maxErrorSum (st.errorSum + (targetLatency - L))) +
        kD * ((targetLatency - L) - st.lastError))) := rfl

/-- Unfolding of the unclamped adjuster's new delay. -/
theorem adjustNC_delay_eq (st : PIDState) (L : ℚ) :
    ((adjustNC st L).1).delay = max minDelay (st.delay +
      (kP * (targetLatency - L) + kI * (st.errorSum + (targetLatency - L)) +
        kD * ((targetLatency - L) - st.lastError))) := rfl

/-- At latency equal to the target, the anti-windup adjuster's state is a
fixed point. -/
theorem trajAW_steady (n : Nat) : trajAW targetLatency n = pidInit := by
  induction n with
  | zero => rfl
  | succ n ih =>
    show (adjustAW (trajAW targetLatency n) targetLatency).1 = pidInit
    rw [ih]
    simp only [adjustAW, pidInit, targetLatency, kP, kI, kD, maxErrorSum, minDelay]
    norm_num

/-- At latency equal to the target, the unclamped adjuster's state is a
fixed point. -/
theorem trajNC_steady (n : Nat) : trajNC targetLatency n = pidInit := by
  induction n with
  | zero => rfl
  | succ n ih =>
    show (adjustNC (trajNC targetLatency n) targetLatency).1 = pidInit
    rw [ih]
    simp only [adjustNC, pidInit, targetLatency, kP, kI, kD, minDelay]
    norm_num

/-- Trajectory invariant for latency above target (anti-windup variant):
the integral term stays nonpositive, the last error is `0` or the
constant error, and the delay never drops below `minDelay`. -/
theorem trajAW_inv (L : ℚ) (hL : targetLatency < L) (n : Nat) :
    (trajAW L n).errorSum ≤ 0 ∧
    ((trajAW L n).lastError = 0 ∨ (trajAW L n).lastError = targetLatency - L) ∧
    minDelay ≤ (trajAW L n).delay := by
  induction n with
  | zero =>
    refine ⟨le_refl 0, Or.inl rfl, ?_⟩
    show minDelay ≤ (1000 : ℚ)
    norm_num [minDelay]
  | succ n ih =>
    obtain ⟨h1, _, _⟩ := ih
    refine ⟨?_, Or.inr rfl, le_max_left _ _⟩
    show max (-maxErrorSum)
      (min maxErrorSum ((trajAW L n).errorSum + (targetLatency - L))) ≤ 0
    apply max_le
    · norm_num [maxErrorSum]
    · exact le_trans (min_le_right _ _) (by linarith)

/-- Trajectory invariant for latency above target (unclamped variant). -/
theorem trajNC_inv (L : ℚ) (hL : targetLatency < L) (n : Nat) :
    (trajNC L n).errorSum ≤ 0 ∧
    ((trajNC L n).lastError = 0 ∨ (trajNC L n).lastError = targetLatency - L) ∧
    minDelay ≤ (trajNC L n).delay := by
  induction n with
  | zero =>
    refine ⟨le_refl 0, Or.inl rfl, ?_⟩
    show minDelay ≤ (1000 : ℚ)
    norm_num [minDelay]
  | succ n ih =>
    obtain ⟨h1, _, _⟩ := ih
    refine ⟨?_, Or.inr rfl, le_max_left _ _⟩
    show (trajNC L n).errorSum + (targetLatency - L) ≤ 0
    linarith

/-- Under the invariant, the anti-windup adjustment is strictly negative
and at most its proportional term. -/
theorem adjAW_neg (st : PIDState) (L : ℚ) (hL : targetLatency < L)
    (h1 : st.errorSum ≤ 0) (h2 : st.lastError = 0 ∨ st.lastError = targetLatency - L) :
    kP * (targetLatency - L) +
      kI * max (-maxErrorSum) (min maxErrorSum (st.errorSum + (targetLatency - L))) +
      kD * ((targetLatency - L) - st.lastError) < 0 ∧
    kP * (targetLatency - L) +
      kI * max (-maxErrorSum) (min maxErrorSum (st.errorSum + (targetLatency - L))) +
      kD * ((targetLatency - L) - st.lastError) ≤ kP * (targetLatency - L) := by
  have he : targetLatency - L < 0 := by linarith
  have hkP : (0 : ℚ) < kP := by norm_num [kP]
  have hkI : (0 : ℚ) < kI := by norm_num [kI]
  have hkD : (0 : ℚ) < kD := by norm_num [kD]
  have hsum : max (-maxErrorSum) (min maxErrorSum (st.errorSum + (targetLatency - L))) < 0 := by
    apply max_lt
    · norm_num [maxErrorSum]
    · exact lt_of_le_of_lt (min_le_right _ _) (by linarith)
  have hder : (targetLatency - L) - st.lastError ≤ 0 := by
    rcases h2 with h | h <;> rw [h] <;> linarith
  have t1 : kP * (targetLatency - L) < 0 := mul_neg_of_pos_of_neg hkP he
  have t2 : kI * max (-maxErrorSum) (min maxErrorSum (st.errorSum + (targetLatency - L))) < 0 :=
    mul_neg_of_pos_of_neg hkI hsum
  have t3 : kD * ((targetLatency - L) - st.lastError) ≤ 0 := by
    have := mul_le_mul_of_nonneg_left hder (le_of_lt hkD)
    simpa using this
  exact ⟨by linarith, by linarith⟩

/-- Under the invariant, the unclamped adjustment is strictly negative
and at most its proportional term. -/
theorem adjNC_neg (st : PIDState) (L : ℚ) (hL : targetLatency < L)
    (h1 : st.errorSum ≤ 0) (h2 : st.lastError = 0 ∨ st.lastError = targetLatency - L) :
    kP * (targetLatency - L) + kI * (st.errorSum + (targetLatency - L)) +
      kD * ((targetLatency - L) - st.lastError) < 0 ∧
    kP * (targetLatency - L) + kI * (st.errorSum + (targetLatency - L)) +
      kD * ((targetLatency - L) - st.lastError) ≤ kP * (targetLatency - L) := by
  have he : targetLatency - L < 0 := by linarith
  have hkP : (0 : ℚ) < kP := by norm_num [kP]
  have hkI : (0 : ℚ) < kI := by norm_num [kI]
  have hkD : (0 : ℚ) < kD := by norm_num [kD]
  have hsum : st.errorSum + (targetLatency - L) < 0 := by linarith
  have hder : (targetLatency - L) - st.lastError ≤ 0 := by
    rcases h2 with h | h <;> rw [h] <;> linarith
  have t1 : kP * (targetLatency - L) < 0 := mul_neg_of_pos_of_neg hkP he
  have t2 : kI * (st.errorSum + (targetLatency - L)) < 0 := mul_neg_of_pos_of_neg hkI hsum
  have t3 : kD * ((targetLatency - L) - st.lastError) ≤ 0 := by
    have := mul_le_mul_of_nonneg_left hder (le_of_lt hkD)
    simpa using this
  exact ⟨by linarith, by linarith⟩

/-- Above `minDelay`, the anti-windup delay strictly decreases. -/
theorem trajAW_dec (L : ℚ) (hL : targetLatency < L) (n : Nat)
    (hd : minDelay < (trajAW L n).delay) :
    (trajAW L (n + 1)).delay < (trajAW L n).delay := by
  obtain ⟨h1, h2, _⟩ := trajAW_inv L hL n
  have hadj := (adjAW_neg (trajAW L n) L hL h1 h2).1
  show ((adjustAW (trajAW L n) L).1).delay < (trajAW L n).delay
  rw [adjustAW_delay_eq]
  exact max_lt hd (by linarith)

/-- At `minDelay`, the anti-windup delay stays put. -/
theorem trajAW_absorb (L : ℚ) (hL : targetLatency < L) (n : Nat)
    (hd : (trajAW L n).delay = minDelay) :
    (trajAW L (n + 1)).delay = minDelay := by
  obtain ⟨h1, h2, _⟩ := trajAW_inv L hL n
  have hadj := (adjAW_neg (trajAW L n) L hL h1 h2).1
  show ((adjustAW (trajAW L n) L).1).delay = minDelay
  rw [adjustAW_delay_eq]
  exact max_eq_left (by rw [hd]; linarith)

/-- Above `minDelay`, the unclamped delay strictly decreases. -/
theorem trajNC_dec (L : ℚ) (hL : targetLatency < L) (n : Nat)
    (hd : minDelay < (trajNC L n).delay) :
    (trajNC L (n + 1)).delay < (trajNC L n).delay := by
  obtain ⟨h1, h2, _⟩ := trajNC_inv L hL n
  have hadj := (adjNC_neg (trajNC L n) L hL h1 h2).1
  show ((adjustNC (trajNC L n) L).1).delay < (trajNC L n).delay
  rw [adjustNC_delay_eq]
  exact max_lt hd (by linarith)

/-- At `minDelay`, the unclamped delay stays put. -/
theorem trajNC_absorb (L : ℚ) (hL : targetLatency < L) (n : Nat)
    (hd : (trajNC L n).delay = minDelay) :
    (trajNC L (n + 1)).delay = minDelay := by
  obtain ⟨h1, h2, _⟩ := trajNC_inv L hL n
  have hadj := (adjNC_neg (trajNC L n) L hL h1 h2).1
  show ((adjustNC (trajNC L n) L).1).delay = minDelay
  rw [adjustNC_delay_eq]
  exact max_eq_left (by rw [hd]; linarith)

/-- Linear descent bound on the anti-windup delay. -/
theorem trajAW_bound (L : ℚ) (hL : targetLatency < L) (n : Nat) :
    (trajAW L n).delay ≤ max minDelay (1000 + n * (kP * (targetLatency - L))) := by
  have hk : kP * (targetLatency - L) < 0 :=
    mul_neg_of_pos_of_neg (by norm_num [kP]) (by linarith)
  induction n with
  | zero =>
    show (1000 : ℚ) ≤ max minDelay (1000 + 0 * (kP * (targetLatency - L)))
    rw [zero_mul, add_zero]
    exact le_max_right _ _
  | succ n ih =>
    obtain ⟨h1, h2, _⟩ := trajAW_inv L hL n
    have hle := (adjAW_neg (trajAW L n) L hL h1 h2).2
    have step : (trajAW L (n + 1)).delay
        ≤ max minDelay ((trajAW L n).delay + kP * (targetLatency - L)) := by
      show ((adjustAW (trajAW L n) L).1).delay ≤ _
      rw [adjustAW_delay_eq]
      exact max_le_max (le_refl _) (by linarith)
    refine le_trans step (max_le (le_max_left _ _) ?_)
    have h3 : (trajAW L n).delay + kP * (targetLatency - L)
        ≤ max minDelay (1000 + n * (kP * (targetLatency - L))) + kP * (targetLatency - L) := by
      linarith
    refine le_trans h3 ?_
    rw [← max_add_add_right]
    apply max_le
    · exact le_trans (by linarith)
        (le_max_left minDelay (1000 + (n + 1 : Nat) * (kP * (targetLatency - L))))
    · refine le_trans (le_of_eq ?_) (le_max_right minDelay _)
      push_cast
      ring

/-- Linear descent bound on the unclamped delay. -/
theorem trajNC_bound (L : ℚ) (hL : targetLatency < L) (n : Nat) :
    (trajNC L n).delay ≤ max minDelay (1000 + n * (kP * (targetLatency - L))) := by
  have hk : kP * (targetLatency - L) < 0 :=
    mul_neg_of_pos_of_neg (by norm_num [kP]) (by linarith)
  induction n with
  | zero =>
    show (1000 : ℚ) ≤ max minDelay (1000 + 0 * (kP * (targetLatency - L)))
    rw [zero_mul, add_zero]
    exact le_max_right _ _
  | succ n ih =>
    obtain ⟨h1, h2, _⟩ := trajNC_inv L hL n
    have hle := (adjNC_neg (trajNC L n) L hL h1 h2).2
    have step : (trajNC L (n + 1)).delay
        ≤ max minDelay ((trajNC L n).delay + kP * (targetLatency - L)) := by
      show ((adjustNC (trajNC L n) L).1).delay ≤ _
      rw [adjustNC_delay_eq]
      exact max_le_max (le_refl _) (by linarith)
    refine le_trans step (max_le (le_max_left _ _) ?_)
    have h3 : (trajNC L n).delay + kP * (targetLatency - L)
        ≤ max minDelay (1000 + n * (kP * (targetLatency - L))) + kP * (targetLatency - L) := by
      linarith
    refine le_trans h3 ?_
    rw [← max_add_add_right]
    apply max_le
    · exact le_trans (by linarith)
        (le_max_left minDelay (1000 + (n + 1 : Nat) * (kP * (targetLatency - L))))
    · refine le_trans (le_of_eq ?_) (le_max_right minDelay _)
      push_cast
      ring

/-- The anti-windup delay reaches `minDelay` after finitely many calls. -/
theorem trajAW_reach (L : ℚ) (hL : targetLatency < L) :
    ∃ N : Nat, (trajAW L N).delay = minDelay := by
  have hx : (0 : ℚ) < kP * (L - targetLatency) :=
    mul_pos (by norm_num [kP]) (by linarith)
  obtain ⟨N, hN⟩ := exists_nat_gt ((1000 - minDelay) / (kP * (L - targetLatency)))
  have h2 : 1000 - minDelay < N * (kP * (L - targetLatency)) := by
    rwa [div_lt_iff₀ hx] at hN
  have hb := trajAW_bound L hL N
  have h3 : 1000 + N * (kP * (targetLatency - L)) ≤ minDelay := by
    have : (N : ℚ) * (kP * (targetLatency - L)) = -(N * (kP * (L - targetLatency))) := by ring
    linarith [this]
  have h4 : (trajAW L N).delay ≤ minDelay := le_trans hb (max_le (le_refl _) h3)
  exact ⟨N, le_antisymm h4 (trajAW_inv L hL N).2.2⟩

/-- The unclamped delay reaches `minDelay` after finitely many calls. -/
theorem trajNC_reach (L : ℚ) (hL : targetLatency < L) :
    ∃ N : Nat, (trajNC L N).delay = minDelay := by
  have hx : (0 : ℚ) < kP * (L - targetLatency) :=
    mul_pos (by norm_num [kP]) (by linarith)
  obtain ⟨N, hN⟩ := exists_nat_gt ((1000 - minDelay) / (kP * (L - targetLatency)))
  have h2 : 1000 - minDelay < N * (kP * (L - targetLatency)) := by
    rwa [div_lt_iff₀ hx] at hN
  have hb := trajNC_bound L hL N
  have h3 : 1000 + N * (kP * (targetLatency - L)) ≤ minDelay := by
    have : (N : ℚ) * (kP * (targetLatency - L)) = -(N * (kP * (L - targetLatency))) := by ring
    linarith [this]
  have h4 : (trajNC L N).delay ≤ minDelay := le_trans hb (max_le (le_refl _) h3)
  exact ⟨N, le_antisymm h4 (trajNC_inv L hL N).2.2⟩

/-- Once at `minDelay`, the anti-windup delay stays there. -/
theorem trajAW_stay (L : ℚ) (hL : targetLatency < L) (N : Nat)
    (hN : (trajAW L N).delay = minDelay) : ∀ m, N ≤ m → (trajAW L m).delay = minDelay := by
  intro m hm
  obtain ⟨k, rfl⟩ := Nat.exists_eq_add_of_le hm
  clear hm
  induction k with
  | zero => exact hN
  | succ k ih => exact trajAW_absorb L hL (N + k) ih

/-- Once at `minDelay`, the unclamped delay stays there. -/
theorem trajNC_stay (L : ℚ) (hL : targetLatency < L) (N : Nat)
    (hN : (trajNC L N).delay = minDelay) : ∀ m, N ≤ m → (trajNC L m).delay = minDelay := by
  intro m hm
  obtain ⟨k, rfl⟩ := Nat.exists_eq_add_of_le hm
  clear hm
  induction k with
  | zero => exact hN
  | succ k ih => exact trajNC_absorb L hL (N + k) ih

/-- With unbounded depth, the mixed-nesting dispatch fully flattens: the
output is exactly the in-order plain leaves, whatever mixture of sync
and async nesting the input carries. -/
theorem flattenMixed_inf_eq : ∀ l : List NVal, flattenMixed .inf l = leavesOf l := by
  have H : ∀ N, ∀ l : List NVal, sizeOf l ≤ N → flattenMixed .inf l = leavesOf l := by
    intro N
    induction N with
    | zero =>
      intro l h
      cases l with
      | nil => simp [flattenMixed, leavesOf]
      | cons x xs => simp at h
    | succ N ih =>
      intro l h
      cases l with
      | nil => simp [flattenMixed, leavesOf]
      | cons x xs =>
        have hxs : sizeOf xs ≤ N := by
          have hx : 1 ≤ sizeOf x := by cases x <;> simp
          simp at h
          omega
        cases x with
        | num n =>
          rw [flattenMixed]
          simp only [NVal.isAsyncIt, NVal.isSyncIt, Depth.pos, Bool.and_false,
            Bool.false_and, Bool.and_true, Bool.true_and]
          rw [ih xs hxs]
          simp [leavesOf, NVal.leaves]
        | arr l' =>
          have hl' : sizeOf l' ≤ N := by
            simp at h ⊢
            omega
          rw [flattenMixed]
          simp only [NVal.isAsyncIt, NVal.isSyncIt, Depth.pos, NVal.children,
            Depth.dec, Bool.and_false, Bool.false_and, Bool.and_true, Bool.true_and]
          rw [ih xs hxs, ih l' hl']
          simp [leavesOf, NVal.leaves]
        | aseq l' =>
          have hl' : sizeOf l' ≤ N := by
            simp at h ⊢
            omega
          rw [flattenMixed]
          simp only [NVal.isAsyncIt, NVal.isSyncIt, Depth.pos, NVal.children,
            Depth.dec, Bool.and_false, Bool.false_and, Bool.and_true, Bool.true_and]
          rw [ih xs hxs, ih l' hl']
          simp [leavesOf, NVal.leaves]
  intro l
  exact H (sizeOf l) l (le_refl _)

/-- Any finite depth at least the input's nesting depth already fully
flattens: the "up to depth levels" recursion bottoms out on plain
leaves. -/
theorem flattenMixed_fin_eq : ∀ (l : List NVal) (d : Nat), nestingOf l ≤ d →
    flattenMixed (.fin d) l = leavesOf l := by
  have H : ∀ N, ∀ l : List NVal, sizeOf l ≤ N → ∀ d : Nat, nestingOf l ≤ d →
      flattenMixed (.fin d) l = leavesOf l := by
    intro N
    induction N with
    | zero =>
      intro l h
      cases l with
      | nil => intro d _; simp [flattenMixed, leavesOf]
      | cons x xs => simp at h
    | succ N ih =>
      intro l h
      cases l with
      | nil => intro d _; simp [flattenMixed, leavesOf]
      | cons x xs =>
        intro d hd
        have hxs : sizeOf xs ≤ N := by
          have hx : 1 ≤ sizeOf x := by cases x <;> simp
          simp at h
          omega
        have hdxs : nestingOf xs ≤ d := by
          simp [nestingOf] at hd
          omega
        cases x with
        | num n =>
          rw [flattenMixed]
          simp only [NVal.isAsyncIt, NVal.isSyncIt, Bool.and_false]
          rw [ih xs hxs d hdxs]
          simp [leavesOf, NVal.leaves]
        | arr l' =>
          have hl' : sizeOf l' ≤ N := by
            simp at h ⊢
            omega
          have hpos : 0 < d := by
            simp [nestingOf, NVal.nesting] at hd
            omega
          have hdl' : nestingOf l' ≤ d - 1 := by
            simp [nestingOf, NVal.nesting] at hd
            omega
          rw [flattenMixed]
          rw [if_neg (by simp [NVal.isAsyncIt])]
          rw [if_pos (by simp [NVal.isSyncIt, Depth.pos, hpos])]
          rw [ih xs hxs d hdxs]
          show flattenMixed (Depth.dec (.fin d)) l' ++ leavesOf xs
            = leavesOf (NVal.arr l' :: xs)
          rw [show Depth.dec (.fin d) = .fin (d - 1) from rfl, ih l' hl' (d - 1) hdl']
          simp [leavesOf, NVal.leaves]
        | aseq l' =>
          have hl' : sizeOf l' ≤ N := by
            simp at h ⊢
            omega
          have hpos : 0 < d := by
            simp [nestingOf, NVal.nesting] at hd
            omega
          have hdl' : nestingOf l' ≤ d - 1 := by
            simp [nestingOf, NVal.nesting] at hd
            omega
          rw [flattenMixed]
          rw [if_pos (by simp [NVal.isAsyncIt, Depth.pos, hpos])]
          rw [ih xs hxs d hdxs]
          show flattenMixed (Depth.dec (.fin d)) l' ++ leavesOf xs
            = leavesOf (NVal.aseq l' :: xs)
          rw [show Depth.dec (.fin d) = .fin (d - 1) from rfl, ih l' hl' (d - 1) hdl']
          simp [leavesOf, NVal.leaves]
  intro l d hd
  exact H (sizeOf l) l (le_refl _) d hd

/-- Every leaf is a plain value: the reference flattening converges to a
single sequence of plain values. -/
theorem leavesOf_plain : ∀ l : List NVal, ∀ x ∈ leavesOf l, ∃ n, x = NVal.num n := by
  have H : ∀ N, ∀ l : List NVal, sizeOf l ≤ N → ∀ x ∈ leavesOf l, ∃ n, x = NVal.num n := by
    intro N
    induction N with
    | zero =>
      intro l h
      cases l with
      | nil => simp [leavesOf]
      | cons x xs => simp at h
    | succ N ih =>
      intro l h
      cases l with
      | nil => simp [leavesOf]
      | cons y ys =>
        have hys : sizeOf ys ≤ N := by
          have hy : 1 ≤ sizeOf y := by cases y <;> simp
          simp at h
          omega
        intro x hx
        rw [leavesOf] at hx
        rcases List.mem_append.1 hx with hx | hx
        · cases y with
          | num n =>
            simp [NVal.leaves] at hx
            exact ⟨n, hx⟩
          | arr l' =>
            have hl' : sizeOf l' ≤ N := by
              simp at h ⊢
              omega
            exact ih l' hl' x (by simpa [NVal.leaves] using hx)
          | aseq l' =>
            have hl' : sizeOf l' ≤ N := by
              simp at h ⊢
              omega
            exact ih l' hl' x (by simpa [NVal.leaves] using hx)
        · exact ih ys hys x hx
  intro l
  exact H (sizeOf l) l (le_refl _)

/-- Composing pipelines of fallible stages splits as sequential binds:
the second half runs on the first half's output, and an error in the
first half short-circuits. -/
theorem streamE_append {ε α : Type _} (s1 s2 : List (EStage ε α)) (l : List α) :
    streamE (s1 ++ s2) l = (streamE s1 l).bind (streamE s2) := by
  induction s1 generalizing l with
  | nil => simp [streamE, Except.bind]
  | cons s rest ih =>
    show streamE (s :: (rest ++ s2)) l = _
    rw [streamE]
    cases h : applyEStage s l with
    | error e => simp [streamE, h, Bind.bind, Except.bind]
    | ok l' => simp [streamE, h, Bind.bind, Except.bind, ih]

end CAS

namespace CAS

/-! ## Claims -/

/-- C1, counterexample: `addOperation` mutates the receiver.  On a fresh
`LazyStream` over `[1, 2, 3]`, calling `map(x => x * 2)` changes the
receiver's stage list (receiver and result are the same object), and the
pipeline object, materialized after the call, yields `[2, 4, 6]` instead
of the `[1, 2, 3]` it yielded before — the original does not behave as it
did before the call. -/
theorem claim1_cex :
    (lsEx.mapS dblVal).pipeline ≠ lsEx.pipeline ∧
    ((lsEx.mapS dblVal).materialize).1 ≠ (lsEx.materialize).1 ∧
    ((lsEx.mapS dblVal).materialize).1 = [.num 2, .num 4, .num 6] ∧
    (lsEx.materialize).1 = [.num 1, .num 2, .num 3] := by
  refine ⟨?_, ?_, ?_, ?_⟩ <;>
    simp [lsEx, LazyStream.mapS, LazyStream.addOperation, LazyStream.materialize,
      SrcIt.drain, applyOp, dblVal]

/-- C1 (corrected): for both staged pipelines, every chaining operator
goes through `addOperation`, which appends the stage to the receiver's
own stage list (in place, returning the same object): the stage list
after the call is the previous list plus the one appended stage and the
source is unchanged — but the receiver is mutated, not left intact. -/
theorem claim1_amended :
    (∀ (s : LazyStream) (op : Op),
      (s.addOperation op).pipeline = s.pipeline ++ [op] ∧
      (s.addOperation op).source = s.source) ∧
    (∀ (t : AsyncLazyStream) (aop : AOp),
      (t.addOperation aop).pipeline = t.pipeline ++ [aop] ∧
      (t.addOperation aop).source = t.source) ∧
    (∀ (s : LazyStream) (f : JSVal → JSVal) (p : JSVal → Bool)
        (g : JSVal → List JSVal) (n : Nat) (others : List (List JSVal))
        (other : List JSVal) (d : Depth),
      s.mapS f = s.addOperation (.map f) ∧
      s.filterS p = s.addOperation (.filter p) ∧
      s.flatMapS g = s.addOperation (.flatMap g) ∧
      s.takeS n = s.addOperation (.take n) ∧
      s.skipS n = s.addOperation (.skip n) ∧
      s.concatS others = s.addOperation (.concat others) ∧
      s.zipS other = s.addOperation (.zip other) ∧
      s.tapS = s.addOperation .tap ∧
      s.flattenS d = s.addOperation (.flatten d)) := by
  refine ⟨fun s op => ⟨rfl, rfl⟩, fun t aop => ⟨rfl, rfl⟩, ?_⟩
  intro s f p g n others other d
  exact ⟨rfl, rfl, rfl, rfl, rfl, rfl, rfl, rfl, rfl⟩

/-- C2, counterexample: `take(1)` over the upstream `[10, 20, 30]` pulls
2 elements before stopping (the loop pulls the second element and only
then hits the `break`), exceeding the claim's bound of `n = 1`; the
`asyncTake` of `async-lazy-stream.ts` pulls 2 as well. -/
theorem claim2_cex :
    takeSyncPulls [(10 : Int), 20, 30] 1 = 2 ∧ 1 < 2 ∧
    takeAsyncPulls [(10 : Int), 20, 30] 1 = 2 := by
  refine ⟨by decide, by omega, by decide⟩

/-- C2 (corrected): consuming `take(n)` to exhaustion emits exactly the
first `n` elements but pulls `min(length, n + 1)` elements from upstream
— at most `n + 1`, not at most `n`: after the `n`-th emission one more
pull occurs (when upstream has an element) before the loop breaks.  Both
the sync `take` and `asyncTake` behave this way. -/
theorem claim2_amended {α : Type _} (l : List α) (n : Nat) :
    takeSyncOut l n = l.take n ∧ takeSyncPulls l n = min l.length (n + 1) ∧
    takeSyncPulls l n ≤ n + 1 ∧
    takeAsyncOut l n = l.take n ∧ takeAsyncPulls l n = min l.length (n + 1) ∧
    takeAsyncPulls l n ≤ n + 1 := by
  have hs := takeLoopSync_eq l 0 n (Nat.zero_le n)
  have ha := takeLoopAsync_eq l 0 n (Nat.zero_le n)
  simp only [Nat.sub_zero] at hs ha
  refine ⟨?_, ?_, ?_, ?_, ?_, ?_⟩
  · show (takeLoopSync l 0 n).1 = l.take n
    rw [hs]
  · show (takeLoopSync l 0 n).2 = min l.length (n + 1)
    rw [hs]
  · show (takeLoopSync l 0 n).2 ≤ n + 1
    rw [hs]; exact min_le_right _ _
  · show (takeLoopAsync l 0 n).1 = l.take n
    rw [ha]
  · show (takeLoopAsync l 0 n).2 = min l.length (n + 1)
    rw [ha]
  · show (takeLoopAsync l 0 n).2 ≤ n + 1
    rw [ha]; exact min_le_right _ _

/-- C3, counterexample: `SyncSequence.flatten` takes no depth parameter
and does `yield* sub` on every element, which throws on the non-iterable
element `6` of the spec's example `[[1,2],[3,[4,5]],6]` — it neither
accepts `depth = 1` nor yields the claimed `[1,2,3,[4,5],6]`. -/
theorem claim3_cex : flattenSS nestedExample = none := rfl

/-- C3 (corrected): the depth-taking `flatten` — `LazyStream`'s
`flatten`, and `asyncFlatten`/`syncFlatten` of the async variants, whose
shared per-element dispatch is `flattenMixed` — defaults to unbounded
depth and recursively unwraps nested sequences up to `depth` levels,
detecting per element whether it is an async sequence, a sync iterable,
or a plain value, in any mixture: with unbounded depth (and already with
any finite depth at least the nesting depth) the output is exactly the
in-order sequence of plain leaf values, every output element plain;
depth 1 on `[[1,2],[3,[4,5]],6]` yields `[1,2,3,[4,5],6]` and unbounded
depth yields `[1,2,3,4,5,6]`.  `SyncSequence.flatten`, however, takes no
depth parameter, unwraps exactly one level of each element, and throws
on a non-iterable element. -/
theorem claim3_amended :
    flattenLS (.fin 1) nestedExample
      = [.num 1, .num 2, .num 3, .arr [.num 4, .num 5], .num 6] ∧
    flattenLS .inf nestedExample
      = [.num 1, .num 2, .num 3, .num 4, .num 5, .num 6] ∧
    (∀ l : List NVal, flattenMixed .inf l = leavesOf l) ∧
    (∀ l : List NVal, ∀ x ∈ flattenMixed .inf l, ∃ n, x = NVal.num n) ∧
    (∀ (l : List NVal) (d : Nat), nestingOf l ≤ d → flattenMixed (.fin d) l = leavesOf l) ∧
    flattenMixed .inf mixedExample
      = [.num 1, .num 2, .num 3, .num 4, .num 5, .num 6] ∧
    (∀ (ls : List JSVal) (xs : List JSVal),
      flattenSS (JSVal.arr ls :: xs) = (flattenSS xs).map (ls ++ ·)) ∧
    (∀ (n : Int) (xs : List JSVal), flattenSS (JSVal.num n :: xs) = none) := by
  refine ⟨?_, ?_, flattenMixed_inf_eq, ?_, flattenMixed_fin_eq, ?_, fun ls xs => rfl,
    fun n xs => rfl⟩
  · simp [flattenLS, nestedExample, Depth.pos, Depth.dec, JSVal.isIterable, JSVal.children]
  · simp [flattenLS, nestedExample, Depth.pos, Depth.dec, JSVal.isIterable, JSVal.children]
  · intro l x hx
    rw [flattenMixed_inf_eq] at hx
    exact leavesOf_plain l x hx
  · simp [flattenMixed, mixedExample, Depth.pos, Depth.dec, NVal.isAsyncIt, NVal.isSyncIt,
      NVal.children]

/-- C3, witness: the mixed-nesting input `[aseq [1, [2,3]], [4, aseq
[5]], 6]` has nesting depth 2, and `flatten` at depth 2 already fully
flattens it to its leaves. -/
theorem claim3_witness :
    nestingOf mixedExample ≤ 2 ∧
    flattenMixed (.fin 2) mixedExample = leavesOf mixedExample := by
  have hd : nestingOf mixedExample ≤ 2 := by
    simp [mixedExample, nestingOf, NVal.nesting]
  exact ⟨hd, claim3_amended.2.2.2.2.1 mixedExample 2 hd⟩

/-- C4 (confirmed): for every finite sequence, `toSync`'s buffering loop
after the `toAsync` adapter reproduces exactly the original elements in
order (no duplication, no loss), and likewise in the other direction. -/
theorem claim4_roundtrip {α : Type _} (l : List α) :
    asyncToSyncDrain (syncToAsync l) = l ∧
    syncToAsync (asyncToSyncDrain l) = l := by
  constructor <;> simp [asyncToSyncDrain, syncToAsync, foldl_push]

/-- C5, counterexample: the `rateAdjuster` of `pid-control.ts` never
clamps its integral accumulator: after 6 calls at observed latency `0`
(error `1000` each call), `errorSum` is `6000`, outside
`[-maxErrorSum, maxErrorSum] = [-5000, 5000]`. -/
theorem claim5_cex :
    (trajNC 0 6).errorSum = 6000 ∧ maxErrorSum < 6000 ∧
    ¬ ((trajNC 0 6).errorSum ≤ maxErrorSum) := by
  have h : (trajNC 0 6).errorSum = 6000 := by
    simp [trajNC, adjustNC, pidInit, targetLatency]
    norm_num
  refine ⟨h, by norm_num [maxErrorSum], by rw [h]; norm_num [maxErrorSum]⟩

/-- C5 (corrected): for the anti-windup adjuster (`createRateAdjuster`),
after every call `errorSum` lies in `[-maxErrorSum, maxErrorSum]`, the
returned delay equals `max(minDelay, previousDelay + kP*error +
kI*errorSum + kD*(error - lastError))` with `errorSum` the clamped
updated sum and `error = target - observedLatency`, and the stored delay
(equal to the returned one) is at least `minDelay` — but there is no
`maxDelay` upper clamp, and the `pid-control.ts` variant does not clamp
`errorSum` at all. -/
theorem claim5_amended (st : PIDState) (latency : ℚ) :
    -maxErrorSum ≤ ((adjustAW st latency).1).errorSum ∧
    ((adjustAW st latency).1).errorSum ≤ maxErrorSum ∧
    minDelay ≤ (adjustAW st latency).2 ∧
    (adjustAW st latency).2 = max minDelay (st.delay +
      (kP * (targetLatency - latency) + kI * ((adjustAW st latency).1).errorSum +
        kD * ((targetLatency - latency) - st.lastError))) ∧
    ((adjustAW st latency).1).delay = (adjustAW st latency).2 ∧
    ((adjustAW st latency).1).lastError = targetLatency - latency := by
  refine ⟨le_max_left _ _, ?_, le_max_left _ _, rfl, rfl, rfl⟩
  exact max_le (by norm_num [maxErrorSum]) (min_le_left _ _)

/-- C6, counterexample: the chain `SyncSequence.from(() => range(1, 10))
.map(x => x * 2).filter(x => x > 10)` yields `[12, 14, 16, 18, 20]` on
its first materialization and `[]` on the second — the chained generator
objects (created at chain time) are single-use, so materializing the same
composed sequence twice does not yield identical output. -/
theorem claim6_cex :
    (syncChainEx.drain).1 = [12, 14, 16, 18, 20] ∧
    ((syncChainEx.drain).2.drain).1 = [] ∧
    ((syncChainEx.drain).2.drain).1 ≠ (syncChainEx.drain).1 := by
  refine ⟨?_, ?_, ?_⟩ <;> decide

/-- C6 (corrected): a `LazyStream` whose retained source is re-iterable
(an array) is deterministic across materializations for any composition
of `map` and `filter` stages (a `map`/`filter` stage closes over no
other stream and no per-run state; `stream()` rebuilds fresh stage
generators each run) — the range example yields `[12, 14, 16, 18, 20]`
on both runs — whereas a `SyncSequence` chain containing at least one
`map`/`filter` stage wraps a single-use generator object and yields `[]`
on its second run. -/
theorem claim6_amended :
    (∀ (l : List JSVal) (stages : List MFOp),
      ((LazyStream.mk (.arr l) (stages.map MFOp.toOp)).materialize).2
        = LazyStream.mk (.arr l) (stages.map MFOp.toOp) ∧
      (((LazyStream.mk (.arr l) (stages.map MFOp.toOp)).materialize).2.materialize).1
        = ((LazyStream.mk (.arr l) (stages.map MFOp.toOp)).materialize).1) ∧
    (∀ {α : Type} (f : α → α) (sub : SeqNode α),
      (((SeqNode.mapN f sub false).drain).2.drain).1 = []) ∧
    (∀ {α : Type} (p : α → Bool) (sub : SeqNode α),
      (((SeqNode.filterN p sub false).drain).2.drain).1 = []) ∧
    (lazyRangeEx.materialize).1 = [.num 12, .num 14, .num 16, .num 18, .num 20] ∧
    ((lazyRangeEx.materialize).2.materialize).1
      = [.num 12, .num 14, .num 16, .num 18, .num 20] := by
  refine ⟨fun l stages => ⟨rfl, rfl⟩, ?_, ?_, ?_, ?_⟩
  · intro α f sub; simp [SeqNode.drain]
  · intro α p sub; simp [SeqNode.drain]
  · rfl
  · rfl

/-- C7 (confirmed), for both PID adjusters (`createRateAdjuster` with
anti-windup, and the unclamped `pid-control.ts` closure): when observed
latency equals the target on every call from the initial state, every
call returns the same delay (`1000`, zero net adjustment); and for any
constant observed latency above the target, the delay never goes below
`minDelay`, strictly decreases on every call while above `minDelay`,
stays at `minDelay` once it equals it, and from some call `N` on it is
exactly `minDelay`. -/
theorem claim7 :
    (∀ n : Nat, (adjustAW (trajAW targetLatency n) targetLatency).2 = 1000 ∧
      (adjustNC (trajNC targetLatency n) targetLatency).2 = 1000) ∧
    (∀ L : ℚ, targetLatency < L →
      (∀ n : Nat, minDelay ≤ (trajAW L n).delay ∧
        (minDelay < (trajAW L n).delay → (trajAW L (n + 1)).delay < (trajAW L n).delay) ∧
        ((trajAW L n).delay = minDelay → (trajAW L (n + 1)).delay = minDelay)) ∧
      ∃ N : Nat, ∀ m : Nat, N ≤ m → (trajAW L m).delay = minDelay) ∧
    (∀ L : ℚ, targetLatency < L →
      (∀ n : Nat, minDelay ≤ (trajNC L n).delay ∧
        (minDelay < (trajNC L n).delay → (trajNC L (n + 1)).delay < (trajNC L n).delay) ∧
        ((trajNC L n).delay = minDelay → (trajNC L (n + 1)).delay = minDelay)) ∧
      ∃ N : Nat, ∀ m : Nat, N ≤ m → (trajNC L m).delay = minDelay) := by
  refine ⟨?_, ?_, ?_⟩
  · intro n
    constructor
    · rw [trajAW_steady]
      show max minDelay _ = 1000
      norm_num [pidInit, targetLatency, kP, kI, kD, maxErrorSum, minDelay]
    · rw [trajNC_steady]
      show max minDelay _ = 1000
      norm_num [pidInit, targetLatency, kP, kI, kD, minDelay]
  · intro L hL
    refine ⟨fun n => ⟨(trajAW_inv L hL n).2.2, trajAW_dec L hL n, trajAW_absorb L hL n⟩, ?_⟩
    obtain ⟨N, hN⟩ := trajAW_reach L hL
    exact ⟨N, trajAW_stay L hL N hN⟩
  · intro L hL
    refine ⟨fun n => ⟨(trajNC_inv L hL n).2.2, trajNC_dec L hL n, trajNC_absorb L hL n⟩, ?_⟩
    obtain ⟨N, hN⟩ := trajNC_reach L hL
    exact ⟨N, trajNC_stay L hL N hN⟩

/-- C7, witness: the steady-state part at call 2, and the
latency-above-target part at the concrete latency `2000`. -/
theorem claim7_witness :
    ((adjustAW (trajAW targetLatency 2) targetLatency).2 = 1000) ∧
    targetLatency < 2000 ∧
    minDelay ≤ (trajAW 2000 3).delay ∧
    minDelay ≤ (trajNC 2000 3).delay :=
  ⟨(claim7.1 2).1, by norm_num [targetLatency],
    ((claim7.2.1 2000 (by norm_num [targetLatency])).1 3).1,
    ((claim7.2.2 2000 (by norm_num [targetLatency])).1 3).1⟩

/-- C8 (confirmed): constructing a pipeline and adding any number of
stages is pure bookkeeping — the resulting object is exactly the original
source (its state untouched, so nothing was pulled from it) together with
the stage list appended; the stage fold over the drained source happens
only inside `materialize` (i.e. at a terminal pull), for both `LazyStream`
and `AsyncLazyStream`. -/
theorem claim8 (s : LazyStream) (ops : List Op) (t : AsyncLazyStream) (aops : List AOp) :
    (ops.foldl LazyStream.addOperation s).source = s.source ∧
    (ops.foldl LazyStream.addOperation s).pipeline = s.pipeline ++ ops ∧
    (aops.foldl AsyncLazyStream.addOperation t).source = t.source ∧
    (aops.foldl AsyncLazyStream.addOperation t).pipeline = t.pipeline ++ aops ∧
    (s.materialize).1 = s.pipeline.foldl (fun acc op => applyOp op acc) (s.source.drain).1 ∧
    (t.materialize).1 = t.pipeline.foldl (fun acc op => applyAOp op acc) (t.source.drain).1 :=
  ⟨(buildPipeline_eq ops s).1, (buildPipeline_eq ops s).2,
    (buildAPipeline_eq aops t).1, (buildAPipeline_eq aops t).2, rfl, rfl⟩

/-- C9 (confirmed): in a pipeline of any number of stages, if the stages
before some stage succeed (producing that stage's input elements) and
that stage's user-supplied function (transform, predicate, or tap
observer) succeeds on a prefix of those elements and throws `e` on the
next one, then the whole pipeline's output and the terminal `reduce`
both surface exactly `e` — the error passes unchanged through every
downstream stage to the caller of the terminal operation, no stage
catches or swallows it, and iteration does not skip the failing element
and continue (the elements after it never influence the outcome). -/
theorem claim9 {ε α β : Type _} (pre post : List (EStage ε α)) (st : EStage ε α)
    (g : β → α → β) (init : β) (src mid l₁ : List α) (x : α) (l₂ : List α) (e : ε)
    (hpre : streamE pre src = .ok mid) (hmid : mid = l₁ ++ x :: l₂)
    (hok : ∀ y ∈ l₁, st.okOn y) (hx : st.failsAt x e) :
    streamE (pre ++ st :: post) src = .error e ∧
    reduceE (pre ++ st :: post) g init src = .error e := by
  have happ : applyEStage st mid = .error e := by
    rw [hmid]
    exact applyEStage_error st l₁ x l₂ e hok hx
  have h1 : streamE (pre ++ st :: post) src = .error e := by
    rw [streamE_append, hpre]
    show streamE (st :: post) mid = .error e
    rw [streamE]
    simp [happ, Bind.bind, Except.bind]
  exact ⟨h1, by simp [reduceE, h1, Except.map]⟩

/-- C9, witness: in the three-stage pipeline `map (+1)` then a transform
that throws `"boom"` on `2`, then an always-passing `filter`, over the
source `[0, 1, 2]`, the terminal `reduce` returns that error. -/
theorem claim9_witness :
    streamE [EStage.emap incOk] [(0 : Int), 1, 2] = .ok [1, 2, 3] ∧
    (∀ y ∈ [(1 : Int)], (EStage.emap failP).okOn y) ∧
    (EStage.emap failP).failsAt 2 "boom" ∧
    reduceE ([EStage.emap incOk] ++ EStage.emap failP :: [EStage.efilter posOk])
      (fun a b => a + b) 0 [(0 : Int), 1, 2] = .error "boom" := by
  refine ⟨rfl, ?_, rfl, ?_⟩
  · intro y hy
    simp at hy
    subst hy
    exact ⟨1, rfl⟩
  · exact (claim9 [EStage.emap incOk] [EStage.efilter posOk] (EStage.emap failP)
      (fun a b => a + b) 0 [0, 1, 2] [1, 2, 3] [1] 2 [3] "boom" rfl rfl
      (by intro y hy; simp at hy; subst hy; exact ⟨1, rfl⟩) rfl).2

/-- C10 (confirmed): `toPromise()` calls `this.take(1)`, which pushes a
`take 1` stage onto the receiver's own pipeline array, so after the call
the object's stage list permanently ends in `take 1`; its return value is
the first element of that materialization, and every materialization of
the object from then on — whatever state its source is in — yields at
most one element.  The same holds for `AsyncLazyStream`. -/
theorem claim10 (s : LazyStream) (t : AsyncLazyStream) :
    ((s.toPromiseEffect).2).pipeline = s.pipeline ++ [Op.take 1] ∧
    (s.toPromiseEffect).1 = (((s.takeS 1).materialize).1).head? ∧
    (∀ src : SrcIt JSVal,
      ((LazyStream.mk src ((s.toPromiseEffect).2).pipeline).materialize).1.length ≤ 1) ∧
    ((t.toPromiseEffect).2).pipeline = t.pipeline ++ [AOp.take 1] ∧
    (t.toPromiseEffect).1 = (((t.takeS 1).materialize).1).head? ∧
    (∀ src : SrcIt JSVal,
      ((AsyncLazyStream.mk src ((t.toPromiseEffect).2).pipeline).materialize).1.length ≤ 1) := by
  refine ⟨rfl, rfl, ?_, rfl, rfl, ?_⟩
  · intro src
    simp [LazyStream.materialize, LazyStream.toPromiseEffect, LazyStream.takeS,
      LazyStream.addOperation, List.foldl_append, applyOp, takeSyncOut_eq_take]
  · intro src
    simp [AsyncLazyStream.materialize, AsyncLazyStream.toPromiseEffect, AsyncLazyStream.takeS,
      AsyncLazyStream.addOperation, List.foldl_append, applyAOp, takeAsyncOut_eq_take]

end CAS
